import Mathlib

/-!
Verification of the recommendation and analytics engine of first_words
(src/app.py): the practice-word selection get_practice_words, the
month-difference helper calculate_age_in_months, and the growth aggregation
create_vocabulary_chart.  Every definition below is a shallow embedding of
the corresponding python code; machine-level string primitives (lowercasing,
dash splitting, decimal parsing) are written out over the character list so
that all definitions compute by kernel reduction.
-/

/-- Lowercasing as python str.lower restricted to ASCII, which is what the
vocabulary and corpus words use.  Char.toLower maps A..Z to a..z and leaves
every other character unchanged. -/
def lowerString (s : String) : String := String.mk (s.data.map Char.toLower)

/-- WordEntry mirrors one element of child_data["words"].  The code reads
the confidence key through dict.get with default 0, so a possibly missing
key is modelled as an Option. -/
structure WordEntry where
  word : String
  date_added : String
  speaks : Bool
  asl : Bool
  confidence : Option Int
deriving DecidableEq, Repr

/-- Child mirrors child_data: an ordered word list plus an optional
birthday string (the code tests whether the key "birthday" is present). -/
structure Child where
  words : List WordEntry
  birthday : Option String
deriving DecidableEq, Repr

/-- CorpusRow mirrors one row of the typical-words CSV: a word, its typical
acquisition age in months, and the optional Learning Strategy column
(rows read it through row.get, so a missing value is an Option). -/
structure CorpusRow where
  word : String
  typical_age : Int
  strategy : Option String
deriving DecidableEq, Repr

/-- PracticeRec mirrors the dict appended to practice_words on lines 49-55
and 75-81 of app.py. -/
structure PracticeRec where
  word : String
  confidence : Int
  typical_age : Int
  in_vocab : Bool
  strategy : String
deriving DecidableEq, Repr

/-- GrowthPoint is one aggregation point of create_vocabulary_chart: the
age bucket, the running cumulative total, the per-bucket new-word count and
the literal new words of the bucket (lines 135-141 of app.py). -/
structure GrowthPoint where
  age_months : Int
  cumulative_total : Nat
  new_word_count : Nat
  new_words : List String
deriving DecidableEq, Repr

/-- Lookup in the dicts built by the comprehensions on lines 37-40 of
app.py.  A python dict comprehension keyed by the lowercased word keeps the
LAST row for a duplicated key, so the lookup finds the last matching row. -/
def dictFind (corpus : List CorpusRow) (wl : String) : Option CorpusRow :=
  corpus.reverse.find? (fun r => lowerString r.word == wl)

/-- Line 47: typical_words_order.get(word_lower, 999), the sentinel 999
standing for a word that is absent from the corpus. -/
def typicalAgeOf (corpus : List CorpusRow) (wl : String) : Int :=
  match dictFind corpus wl with
  | some r => r.typical_age
  | none => 999

/-- Generic fallback text used on lines 48 and 80 of app.py. -/
def fallbackStrategy : String := "Practice this word regularly with your child."

/-- Line 48: typical_words_strategies.get(word_lower, fallback).  The dict
built on line 39 stores row.get("Learning Strategy", "") for every corpus
row, so a present row contributes its stored text (possibly the empty
string) and the fallback fires only when the word is absent from the
corpus. -/
def strategyOf (corpus : List CorpusRow) (wl : String) : String :=
  match dictFind corpus wl with
  | some r => r.strategy.getD ""
  | none => fallbackStrategy

/-- Lines 49-55: the record built for a low-confidence vocabulary entry. -/
def lowConfWord (corpus : List CorpusRow) (e : WordEntry) : PracticeRec :=
  { word := e.word
    confidence := e.confidence.getD 0
    typical_age := typicalAgeOf corpus (lowerString e.word)
    in_vocab := true
    strategy := strategyOf corpus (lowerString e.word) }

/-- Line 45: word_entry.get("confidence", 0) < 50. -/
def isLowConfidence (e : WordEntry) : Bool := e.confidence.getD 0 < 50

/-- Lines 43-55: the low-confidence pass over the child word list, one
record per qualifying entry, in the original order of the list. -/
def lowConfidenceWords (corpus : List CorpusRow) (child : Child) : List PracticeRec :=
  (child.words.filter isLowConfidence).map (lowConfWord corpus)

/-- Ordering used by the sort on line 58: ascending typical age. -/
def ageLE (a b : PracticeRec) : Prop := a.typical_age ≤ b.typical_age

instance : DecidableRel ageLE := fun a b => Int.decLe a.typical_age b.typical_age

instance : IsTotal PracticeRec ageLE := ⟨fun a b => Int.le_total a.typical_age b.typical_age⟩

instance : IsTrans PracticeRec ageLE := ⟨fun _ _ _ => Int.le_trans⟩

/-- Lines 75-81: the record appended for a corpus word that is not yet in
the vocabulary.  Here row.get("Learning Strategy", fallback) yields the
fallback only when the strategy value is missing. -/
def fillWord (r : CorpusRow) : PracticeRec :=
  { word := r.word
    confidence := 0
    typical_age := r.typical_age
    in_vocab := false
    strategy := r.strategy.getD fallbackStrategy }

/-- Lines 69-81: the fallback fill loop.  It walks the corpus in its native
order, breaks as soon as the practice list holds 5 items, and appends a
record for every corpus word whose lowercased form is not among the
lowercased child words. -/
def fillLoop (childLower : List String) : List CorpusRow → List PracticeRec → List PracticeRec
  | [], acc => acc
  | r :: rs, acc =>
    if 5 ≤ acc.length then acc
    else if lowerString r.word ∈ childLower then fillLoop childLower rs acc
    else fillLoop childLower rs (acc ++ [fillWord r])

/-- Corpus rows that pass the exclusion check of the fill loop: their
lowercased word is not among the given lowercased child words. -/
def eligibleRows (corpus : List CorpusRow) (childLower : List String) : List CorpusRow :=
  corpus.filter (fun r => decide (lowerString r.word ∉ childLower))

/-- Line 58: low_confidence_words.sort(key = typical_age).  The python
stable list sort is modelled by insertion sort, which is stable; a stable
sort by a fixed key is a unique function of its input, so this is the same
list python produces. -/
def sortedLowWords (corpus : List CorpusRow) (child : Child) : List PracticeRec :=
  (lowConfidenceWords corpus child).insertionSort ageLE

/-- Line 66: the set of lowercased child words used by the exclusion check
of the fill loop (membership in a list and in a python set agree). -/
def childWordsLower (child : Child) : List String :=
  child.words.map (fun e => lowerString e.word)

/-- Lines 31-83 of app.py, get_practice_words.  The corpus argument stands
for the rows of the loaded typical-words dataframe. -/
def get_practice_words (corpus : List CorpusRow) (child : Child) : List PracticeRec :=
  let firstFive := (sortedLowWords corpus child).take 5
  let filled :=
    if firstFive.length < 5 then fillLoop (childWordsLower child) corpus firstFive
    else firstFive
  filled.take 5

/-- Date modelled as the year, month and day fields strptime extracts. -/
structure Date where
  year : Nat
  month : Nat
  day : Nat
deriving DecidableEq, Repr

/-- Splitting a character list at every dash, as the %Y-%m-%d pattern of
strptime separates its three fields. -/
def splitDashAux : List Char → List Char → List (List Char)
  | [], acc => [acc.reverse]
  | c :: cs, acc =>
    if c = '-' then acc.reverse :: splitDashAux cs []
    else splitDashAux cs (c :: acc)

/-- Decimal value of a nonempty all-digit character list, otherwise none. -/
def digitsVal? (cs : List Char) : Option Nat :=
  if cs ≠ [] ∧ cs.all Char.isDigit then
    some (cs.foldl (fun n c => n * 10 + (c.toNat - 48)) 0)
  else none

/-- Modelling datetime.strptime(s, "%Y-%m-%d") on lines 107-108 of app.py:
three dash-separated decimal fields with the month and day range checks
strptime performs (per-month day-count validation is abstracted to the
range 1..31).  A none result models the ValueError strptime raises on a
malformed date string. -/
def parseDate (s : String) : Option Date :=
  match splitDashAux s.data [] with
  | [ys, ms, ds] =>
    match digitsVal? ys, digitsVal? ms, digitsVal? ds with
    | some y, some m, some d =>
      if 1 ≤ m ∧ m ≤ 12 ∧ 1 ≤ d ∧ d ≤ 31 then some ⟨y, m, d⟩ else none
    | _, _, _ => none
  | _ => none

/-- Lines 105-111 of app.py: months = (target.year - birth.year) * 12 +
target.month - birth.month.  A none result models the propagating
ValueError when either date string is malformed. -/
def calculate_age_in_months (birthdate target_date : String) : Option Int :=
  match parseDate birthdate, parseDate target_date with
  | some b, some t =>
    some (((t.year : Int) - (b.year : Int)) * 12 + ((t.month : Int) - (b.month : Int)))
  | _, _ => none

/-- Lines 121-125 of app.py: the grouping loop keys every word entry by its
age bucket.  The first malformed date aborts the whole chart (the python
exception propagates), hence the Option. -/
def collectAges (bday : String) : List WordEntry → Option (List (Int × String))
  | [] => some []
  | e :: es =>
    match calculate_age_in_months bday e.date_added with
    | none => none
    | some a =>
      match collectAges bday es with
      | none => none
      | some ps => some ((a, e.word) :: ps)

/-- Contents of words_by_age[a]: the words of all entries bucketed at age
a, in the original order of the word list (defaultdict append order). -/
def bucketFor (pairs : List (Int × String)) (a : Int) : List String :=
  (pairs.filter (fun p => decide (p.1 = a))).map Prod.snd

/-- Line 128: sorted(words_by_age.keys()).  The python dict holds each
distinct age once; sorting by the linear order on integers produces the
same list whatever the key enumeration order was, so dedup followed by a
sort is a faithful model. -/
def sortedAges (pairs : List (Int × String)) : List Int :=
  ((pairs.map Prod.fst).dedup).insertionSort (fun a b => a ≤ b)

instance : DecidableRel (fun a b : Int => a ≤ b) := fun a b => Int.decLe a b

/-- Lines 135-141 of app.py: the walk over the sorted buckets carrying the
running cumulative total. -/
def cumPoints (pairs : List (Int × String)) : List Int → Nat → List GrowthPoint
  | [], _ => []
  | a :: rest, total =>
    let bucket := bucketFor pairs a
    let t := total + bucket.length
    { age_months := a
      cumulative_total := t
      new_word_count := bucket.length
      new_words := bucket } :: cumPoints pairs rest t

/-- Possible outcomes of create_vocabulary_chart: the python None result
(no words or no birthday), a propagating date ValueError, or the chart
series. -/
inductive ChartResult where
  | unavailable : ChartResult
  | dateError : ChartResult
  | chart : List GrowthPoint → ChartResult
deriving DecidableEq, Repr

/-- Lines 113-141 of app.py, create_vocabulary_chart reduced to the data it
feeds the plot: the ordered aggregation points. -/
def create_vocabulary_chart (child : Child) : ChartResult :=
  if child.words.isEmpty then ChartResult.unavailable
  else
    match child.birthday with
    | none => ChartResult.unavailable
    | some bday =>
      match collectAges bday child.words with
      | none => ChartResult.dateError
      | some pairs => ChartResult.chart (cumPoints pairs (sortedAges pairs) 0)

/-! Concrete sample inputs used to evaluate the definitions. -/

/-- Sample corpus with two rows. -/
def sampleCorpusA : List CorpusRow := [⟨"ball", 12, none⟩, ⟨"up", 9, none⟩]

/-- Sample entry whose word is absent from sampleCorpusA. -/
def sampleEntryZZZ : WordEntry := ⟨"zzz", "2024-01-01", false, false, some 10⟩

/-- Sample child with three low-confidence words, two of them absent from
sampleCorpusA. -/
def sampleChildA : Child :=
  ⟨[sampleEntryZZZ, ⟨"up", "2024-01-02", false, false, some 20⟩,
    ⟨"hat", "2024-01-03", false, false, some 30⟩], none⟩

/-- Corpus of five rows that all carry the same word. -/
def sampleCorpusAllA : List CorpusRow :=
  [⟨"a", 1, none⟩, ⟨"a", 1, none⟩, ⟨"a", 1, none⟩, ⟨"a", 1, none⟩, ⟨"a", 1, none⟩]

/-- Child knowing the word a with high confidence. -/
def sampleChildHighA : Child := ⟨[⟨"a", "2024-01-01", false, false, some 80⟩], none⟩

/-- Corpus of six rows with six distinct words. -/
def sampleCorpusSix : List CorpusRow :=
  [⟨"mama", 8, none⟩, ⟨"dada", 8, none⟩, ⟨"ball", 12, none⟩,
   ⟨"dog", 10, none⟩, ⟨"cat", 11, none⟩, ⟨"up", 9, none⟩]

/-- Child with a single high-confidence word outside sampleCorpusSix. -/
def sampleChildHighQ : Child := ⟨[⟨"q", "2024-01-01", false, false, some 90⟩], none⟩

/-- Child with a birthday and three dated words in two age buckets. -/
def sampleChildChart : Child :=
  ⟨[⟨"up", "2024-03-10", false, false, some 30⟩,
    ⟨"mama", "2024-03-20", false, false, some 30⟩,
    ⟨"dog", "2024-05-01", false, false, some 30⟩], some "2024-01-15"⟩

/-- Aggregation points produced for sampleChildChart. -/
def sampleChartPoints : List GrowthPoint :=
  [⟨2, 2, 2, ["up", "mama"]⟩, ⟨4, 3, 1, ["dog"]⟩]

/-- Child whose only word predates the birthday by two calendar months. -/
def sampleChildEarly : Child :=
  ⟨[⟨"mama", "2024-03-10", false, false, some 10⟩], some "2024-05-15"⟩

/-- Aggregation points produced for sampleChildEarly: one negative bucket. -/
def sampleEarlyPoints : List GrowthPoint := [⟨-2, 1, 1, ["mama"]⟩]

/-- Child with an empty word list and no birthday. -/
def sampleChildEmpty : Child := ⟨[], none⟩

/-- Child with an empty word list and a birthday. -/
def sampleChildEmptyB : Child := ⟨[], some "2024-01-01"⟩

/-- Corpus holding a single row. -/
def sampleCorpusUp : List CorpusRow := [⟨"up", 9, none⟩]

/-- Corpus whose single row stores an empty learning-strategy text. -/
def sampleCorpusEmptyStrat : List CorpusRow := [⟨"up", 9, some ""⟩]

/-- Child knowing the word up with low confidence. -/
def sampleChildUp : Child := ⟨[⟨"up", "2024-01-01", false, false, some 30⟩], none⟩

/-- Entry with a negative confidence value. -/
def sampleEntryNeg : WordEntry := ⟨"zz", "2024-01-01", false, false, some (-10)⟩

/-- Entry with a confidence value above 100. -/
def sampleEntryBig : WordEntry := ⟨"yy", "2024-01-01", false, false, some 150⟩

/-- Child holding only the negative-confidence entry. -/
def sampleChildNegConf : Child := ⟨[sampleEntryNeg], none⟩

/-- Child holding only the over-100-confidence entry. -/
def sampleChildBigConf : Child := ⟨[sampleEntryBig], none⟩

/-- Child holding both out-of-range entries. -/
def sampleChildMixed : Child := ⟨[sampleEntryNeg, sampleEntryBig], none⟩

/-- Corpus used for the case-sensitivity checks. -/
def sampleCorpusC9 : List CorpusRow := [⟨"ball", 12, none⟩, ⟨"dog", 10, none⟩]

/-- Child holding the same word under two casings, both low confidence. -/
def sampleChildC9 : Child :=
  ⟨[⟨"Ball", "2024-01-01", false, false, some 10⟩,
    ⟨"ball", "2024-01-02", false, false, some 20⟩], none⟩

/-- Corpus row for the word dog. -/
def sampleRowDog : CorpusRow := ⟨"dog", 10, none⟩

/-- Entry whose confidence key is missing. -/
def sampleEntryNoConf : WordEntry := ⟨"up", "2024-01-01", false, false, none⟩

/-- Child holding only the entry without a confidence key. -/
def sampleChildNoConf : Child := ⟨[sampleEntryNoConf], none⟩

/-! Helper lemmas about the fill loop and the shape of the output list. -/

/-- Appending a block that fails the predicate after a block that satisfies
it leaves exactly the first block under takeWhile. -/
theorem takeWhile_append_all {α : Type} {p : α → Bool} :
    ∀ {A B : List α}, (∀ x ∈ A, p x = true) → (∀ x ∈ B, p x = false) →
      (A ++ B).takeWhile p = A
  | [], B, _, hB => by
    cases B with
    | nil => rfl
    | cons b bs => simp [List.takeWhile_cons, hB b (List.mem_cons_self b bs)]
  | a :: as, B, hA, hB => by
    have ha := hA a (List.mem_cons_self a as)
    have ih := takeWhile_append_all (fun x hx => hA x (List.mem_cons_of_mem a hx)) hB
    simp [List.takeWhile_cons, ha, ih]

/-- Companion of takeWhile_append_all: dropWhile keeps exactly the second
block. -/
theorem dropWhile_append_all {α : Type} {p : α → Bool} :
    ∀ {A B : List α}, (∀ x ∈ A, p x = true) → (∀ x ∈ B, p x = false) →
      (A ++ B).dropWhile p = B
  | [], B, _, hB => by
    cases B with
    | nil => rfl
    | cons b bs => simp [List.dropWhile_cons, hB b (List.mem_cons_self b bs)]
  | a :: as, B, hA, hB => by
    have ha := hA a (List.mem_cons_self a as)
    have ih := dropWhile_append_all (fun x hx => hA x (List.mem_cons_of_mem a hx)) hB
    simp [List.dropWhile_cons, ha, ih]

/-- The fill loop only ever appends: its result is the accumulator followed
by fill records for eligible corpus rows. -/
theorem fillLoop_decomp (cl : List String) :
    ∀ (rows : List CorpusRow) (acc : List PracticeRec),
      ∃ tail, fillLoop cl rows acc = acc ++ tail
        ∧ ∀ r ∈ tail, ∃ row ∈ rows, r = fillWord row ∧ lowerString row.word ∉ cl
  | [], acc => ⟨[], by simp [fillLoop], by simp⟩
  | r :: rs, acc => by
    by_cases h5 : 5 ≤ acc.length
    · exact ⟨[], by simp [fillLoop, h5], by simp⟩
    · by_cases hm : lowerString r.word ∈ cl
      · obtain ⟨t, ht, hp⟩ := fillLoop_decomp cl rs acc
        refine ⟨t, by simp [fillLoop, h5, hm, ht], ?_⟩
        intro x hx
        obtain ⟨row, hrow, hxe, hnm⟩ := hp x hx
        exact ⟨row, List.mem_cons_of_mem r hrow, hxe, hnm⟩
      · obtain ⟨t, ht, hp⟩ := fillLoop_decomp cl rs (acc ++ [fillWord r])
        refine ⟨fillWord r :: t, by simp [fillLoop, h5, hm, ht], ?_⟩
        intro x hx
        rcases List.mem_cons.mp hx with hx1 | hx2
        · exact ⟨r, List.mem_cons_self r rs, hx1, hm⟩
        · obtain ⟨row, hrow, hxe, hnm⟩ := hp x hx2
          exact ⟨row, List.mem_cons_of_mem r hrow, hxe, hnm⟩

/-- Length of the fill loop result: it stops at 5 or when the eligible rows
run out. -/
theorem fillLoop_length (cl : List String) :
    ∀ (rows : List CorpusRow) (acc : List PracticeRec), acc.length ≤ 5 →
      (fillLoop cl rows acc).length = min 5 (acc.length + (eligibleRows rows cl).length)
  | [], acc, h => by
    simp only [fillLoop, eligibleRows, List.filter_nil, List.length_nil, Nat.add_zero]
    omega
  | r :: rs, acc, h => by
    by_cases h5 : 5 ≤ acc.length
    · simp only [fillLoop, if_pos h5]
      omega
    · by_cases hm : lowerString r.word ∈ cl
      · have ih := fillLoop_length cl rs acc h
        have helig : eligibleRows (r :: rs) cl = eligibleRows rs cl := by
          simp [eligibleRows, List.filter_cons, hm]
        simp only [fillLoop, if_neg h5, if_pos hm, ih, helig]
      · have ih := fillLoop_length cl rs (acc ++ [fillWord r]) (by
          simp only [List.length_append, List.length_cons, List.length_nil]
          omega)
        have helig : (eligibleRows (r :: rs) cl).length = (eligibleRows rs cl).length + 1 := by
          simp [eligibleRows, List.filter_cons, hm]
        simp only [fillLoop, if_neg h5, if_neg hm, ih, helig,
          List.length_append, List.length_cons, List.length_nil]
        omega

/-- Inversion for membership in the low-confidence pass. -/
theorem mem_lowConfidenceWords {corpus : List CorpusRow} {child : Child} {x : PracticeRec}
    (hx : x ∈ lowConfidenceWords corpus child) :
    ∃ e ∈ child.words, isLowConfidence e = true ∧ x = lowConfWord corpus e := by
  obtain ⟨e, he, hxe⟩ := List.mem_map.mp hx
  have hfe := List.mem_filter.mp he
  exact ⟨e, hfe.1, hfe.2, hxe.symm⟩

/-- Every record of the low-confidence pass carries in_vocab = true. -/
theorem lowConf_in_vocab {corpus : List CorpusRow} {child : Child} :
    ∀ x ∈ lowConfidenceWords corpus child, x.in_vocab = true := by
  intro x hx
  obtain ⟨e, _, _, hxe⟩ := mem_lowConfidenceWords hx
  rw [hxe]
  rfl

/-- Shape of the get_practice_words output: the first five sorted
low-confidence records, followed by fill records for eligible corpus
rows. -/
theorem practice_decomp (corpus : List CorpusRow) (child : Child) :
    ∃ tail, get_practice_words corpus child = (sortedLowWords corpus child).take 5 ++ tail
      ∧ ∀ r ∈ tail, ∃ row ∈ corpus, r = fillWord row
          ∧ lowerString row.word ∉ childWordsLower child := by
  have hAlen : ((sortedLowWords corpus child).take 5).length ≤ 5 :=
    List.length_take_le 5 (sortedLowWords corpus child)
  by_cases h : ((sortedLowWords corpus child).take 5).length < 5
  · obtain ⟨t, ht, hp⟩ :=
      fillLoop_decomp (childWordsLower child) corpus ((sortedLowWords corpus child).take 5)
    refine ⟨t.take (5 - ((sortedLowWords corpus child).take 5).length), ?_, ?_⟩
    · show (if ((sortedLowWords corpus child).take 5).length < 5 then
          fillLoop (childWordsLower child) corpus ((sortedLowWords corpus child).take 5)
        else (sortedLowWords corpus child).take 5).take 5 = _
      rw [if_pos h, ht, List.take_append_eq_append_take, List.take_of_length_le hAlen]
    · intro r hr
      exact hp r (List.take_subset _ _ hr)
  · refine ⟨[], ?_, by simp⟩
    show (if ((sortedLowWords corpus child).take 5).length < 5 then
        fillLoop (childWordsLower child) corpus ((sortedLowWords corpus child).take 5)
      else (sortedLowWords corpus child).take 5).take 5 = _
    rw [if_neg h, List.append_nil, List.take_of_length_le hAlen]

/-- The in-vocabulary records form exactly the sorted-and-truncated
low-confidence block at the front of the output. -/
theorem practice_takeWhile (corpus : List CorpusRow) (child : Child) :
    (get_practice_words corpus child).takeWhile (fun r => r.in_vocab)
      = (sortedLowWords corpus child).take 5 := by
  obtain ⟨tail, heq, hp⟩ := practice_decomp corpus child
  rw [heq]
  apply takeWhile_append_all
  · intro x hx
    have hx3 : x ∈ lowConfidenceWords corpus child :=
      ((List.perm_insertionSort ageLE _).mem_iff).mp (List.take_subset _ _ hx)
    exact lowConf_in_vocab x hx3
  · intro x hx
    obtain ⟨row, _, hxe, _⟩ := hp x hx
    rw [hxe]
    rfl

/-- Stability of the sort on records sharing one typical age: filtering the
sorted list at a fixed key gives back the filtered input, in its original
order. -/
theorem sortedLow_filter_age (corpus : List CorpusRow) (child : Child) (t : Int) :
    (sortedLowWords corpus child).filter (fun r => decide (r.typical_age = t))
      = (lowConfidenceWords corpus child).filter (fun r => decide (r.typical_age = t)) := by
  have hc : ((lowConfidenceWords corpus child).filter
      (fun r => decide (r.typical_age = t))).Pairwise ageLE := by
    apply List.pairwise_of_forall_mem_list
    intro a ha b hb
    have ha2 : a.typical_age = t := by simpa using (List.mem_filter.mp ha).2
    have hb2 : b.typical_age = t := by simpa using (List.mem_filter.mp hb).2
    show a.typical_age ≤ b.typical_age
    omega
  have hsub : ((lowConfidenceWords corpus child).filter
      (fun r => decide (r.typical_age = t))).Sublist (sortedLowWords corpus child) :=
    List.sublist_insertionSort hc (List.filter_sublist _)
  have hidem : ((lowConfidenceWords corpus child).filter
        (fun r => decide (r.typical_age = t))).filter (fun r => decide (r.typical_age = t))
      = (lowConfidenceWords corpus child).filter (fun r => decide (r.typical_age = t)) :=
    List.filter_eq_self.mpr (fun a ha => (List.mem_filter.mp ha).2)
  have hsub2 : ((lowConfidenceWords corpus child).filter
      (fun r => decide (r.typical_age = t))).Sublist
        ((sortedLowWords corpus child).filter (fun r => decide (r.typical_age = t))) := by
    have hf := hsub.filter (fun r => decide (r.typical_age = t))
    rwa [hidem] at hf
  have hlen : ((sortedLowWords corpus child).filter (fun r => decide (r.typical_age = t))).length
      = ((lowConfidenceWords corpus child).filter (fun r => decide (r.typical_age = t))).length :=
    ((List.perm_insertionSort ageLE _).filter _).length_eq
  exact (hsub2.eq_of_length hlen.symm).symm

/-! Helper lemmas about the aggregation side. -/

/-- Summing an indicator over keys that miss the value gives zero. -/
theorem sum_indicator_of_not_mem {x : Int} :
    ∀ {keys : List Int}, x ∉ keys →
      (keys.map (fun a => if x = a then 1 else 0)).sum = 0
  | [], _ => rfl
  | a :: ks, h => by
    have hxa : ¬ x = a := fun he => h (he ▸ List.mem_cons_self a ks)
    have ih := sum_indicator_of_not_mem (fun hk => h (List.mem_cons_of_mem a hk))
    simp [hxa, ih]

/-- Summing an indicator over duplicate-free keys containing the value
gives one. -/
theorem sum_indicator_of_mem {x : Int} :
    ∀ {keys : List Int}, keys.Nodup → x ∈ keys →
      (keys.map (fun a => if x = a then 1 else 0)).sum = 1
  | [], _, hm => absurd hm (List.not_mem_nil x)
  | a :: ks, hnd, hm => by
    rcases List.mem_cons.mp hm with rfl | hm2
    · have hnin : x ∉ ks := (List.nodup_cons.mp hnd).1
      simp [sum_indicator_of_not_mem hnin]
    · have hxa : ¬ x = a := fun he => (List.nodup_cons.mp hnd).1 (he ▸ hm2)
      simp [hxa, sum_indicator_of_mem (List.nodup_cons.mp hnd).2 hm2]

/-- Bucket sizes over duplicate-free keys covering every pair partition the
pair list: the sizes sum to its length. -/
theorem bucket_partition (keys : List Int) (hnd : keys.Nodup) :
    ∀ (pairs : List (Int × String)), (∀ p ∈ pairs, p.1 ∈ keys) →
      (keys.map (fun a => (bucketFor pairs a).length)).sum = pairs.length
  | [], _ => by
    have hz : ∀ a ∈ keys, (bucketFor ([] : List (Int × String)) a).length = (fun _ : Int => 0) a :=
      fun a _ => rfl
    rw [List.map_congr_left hz]
    simp
  | p :: ps, hcov => by
    have ih := bucket_partition keys hnd ps (fun q hq => hcov q (List.mem_cons_of_mem p hq))
    have hstep : ∀ a ∈ keys, (bucketFor (p :: ps) a).length
        = (fun a => (if p.1 = a then 1 else 0) + (bucketFor ps a).length) a := by
      intro a _
      by_cases hpa : p.1 = a
      · simp only [bucketFor, List.filter_cons, hpa, decide_True, if_true, List.length_map,
          List.length_cons]
        omega
      · simp [bucketFor, List.filter_cons, hpa]
    rw [List.map_congr_left hstep, List.sum_map_add,
      sum_indicator_of_mem hnd (hcov p (List.mem_cons_self p ps)), ih]
    simp [Nat.add_comm]

/-- New-word counts of the aggregation points are the bucket sizes. -/
theorem cumPoints_newcounts (pairs : List (Int × String)) :
    ∀ (keys : List Int) (total : Nat),
      (cumPoints pairs keys total).map (fun pt => pt.new_word_count)
        = keys.map (fun a => (bucketFor pairs a).length)
  | [], _ => rfl
  | a :: ks, total => by
    simp only [cumPoints, List.map_cons]
    rw [cumPoints_newcounts pairs ks]

/-- Running totals of the aggregation points never drop below the starting
total and never decrease. -/
theorem cumPoints_chain (pairs : List (Int × String)) :
    ∀ (keys : List Int) (total : Nat),
      List.Chain (fun m n : Nat => m ≤ n) total
        ((cumPoints pairs keys total).map (fun pt => pt.cumulative_total))
  | [], _ => List.Chain.nil
  | a :: ks, total => by
    simp only [cumPoints, List.map_cons]
    exact List.Chain.cons (Nat.le_add_right _ _) (cumPoints_chain pairs ks _)

/-- Last running total: the starting total plus all bucket sizes. -/
theorem cumPoints_last (pairs : List (Int × String)) :
    ∀ (keys : List Int) (total : Nat), keys ≠ [] →
      ((cumPoints pairs keys total).map (fun pt => pt.cumulative_total)).getLast?
        = some (total + (keys.map (fun a => (bucketFor pairs a).length)).sum)
  | [], _, h => absurd rfl h
  | [a], total, _ => by simp [cumPoints]
  | a :: b :: ks, total, _ => by
    have ih := cumPoints_last pairs (b :: ks) (total + (bucketFor pairs a).length)
      (List.cons_ne_nil b ks)
    simp only [cumPoints, List.map_cons] at ih ⊢
    rw [List.getLast?_cons_cons, ih]
    simp only [List.sum_cons, Option.some.injEq]
    omega

/-- Every key owns an aggregation point carrying its bucket. -/
theorem cumPoints_mem (pairs : List (Int × String)) :
    ∀ (keys : List Int) (total : Nat) (a : Int), a ∈ keys →
      ∃ pt ∈ cumPoints pairs keys total, pt.age_months = a ∧ pt.new_words = bucketFor pairs a
  | [], _, a, ha => absurd ha (List.not_mem_nil a)
  | k :: ks, total, a, ha => by
    rcases List.mem_cons.mp ha with rfl | h2
    · refine ⟨_, List.mem_cons_self _ _, rfl, rfl⟩
    · obtain ⟨pt, hpt, h1, h3⟩ := cumPoints_mem pairs ks (total + (bucketFor pairs k).length) a h2
      exact ⟨pt, List.mem_cons_of_mem _ hpt, h1, h3⟩

/-- One bucketed pair per word entry: pair list and word list have the same
length. -/
theorem collectAges_length (bday : String) :
    ∀ (ws : List WordEntry) (ps : List (Int × String)),
      collectAges bday ws = some ps → ps.length = ws.length
  | [], ps, h => by
    simp only [collectAges, Option.some.injEq] at h
    rw [← h]
    rfl
  | e :: es, ps, h => by
    simp only [collectAges] at h
    cases hc : calculate_age_in_months bday e.date_added with
    | none => rw [hc] at h; exact absurd h (by simp)
    | some a =>
      rw [hc] at h
      cases hr : collectAges bday es with
      | none => rw [hr] at h; exact absurd h (by simp)
      | some qs =>
        rw [hr] at h
        simp only [Option.some.injEq] at h
        have ih := collectAges_length bday es qs hr
        rw [← h]
        simp [ih]

/-- Every word entry appears among the bucketed pairs under its computed
age. -/
theorem collectAges_mem (bday : String) :
    ∀ (ws : List WordEntry) (ps : List (Int × String)) (e : WordEntry) (a : Int),
      collectAges bday ws = some ps → e ∈ ws →
      calculate_age_in_months bday e.date_added = some a → (a, e.word) ∈ ps
  | [], _, e, _, _, hm, _ => absurd hm (List.not_mem_nil e)
  | f :: es, ps, e, a, h, hm, ha => by
    simp only [collectAges] at h
    cases hc : calculate_age_in_months bday f.date_added with
    | none => rw [hc] at h; exact absurd h (by simp)
    | some b =>
      rw [hc] at h
      cases hr : collectAges bday es with
      | none => rw [hr] at h; exact absurd h (by simp)
      | some qs =>
        rw [hr] at h
        simp only [Option.some.injEq] at h
        rcases List.mem_cons.mp hm with rfl | hm2
        · rw [ha] at hc
          have hab : a = b := by
            have := Option.some.inj hc
            omega
          rw [← h, hab]
          exact List.mem_cons_self _ _
        · have ih := collectAges_mem bday es qs e a hr hm2 ha
          rw [← h]
          exact List.mem_cons_of_mem _ ih

/-- Sorted bucket keys are duplicate-free. -/
theorem sortedAges_nodup (pairs : List (Int × String)) : (sortedAges pairs).Nodup :=
  ((List.perm_insertionSort (fun a b : Int => a ≤ b) _).nodup_iff).mpr
    (List.nodup_dedup _)

/-- Every pair key occurs among the sorted bucket keys. -/
theorem mem_sortedAges {pairs : List (Int × String)} {p : Int × String} (hp : p ∈ pairs) :
    p.1 ∈ sortedAges pairs := by
  have h1 : p.1 ∈ pairs.map Prod.fst := List.mem_map_of_mem Prod.fst hp
  have h2 : p.1 ∈ (pairs.map Prod.fst).dedup := List.mem_dedup.mpr h1
  exact ((List.perm_insertionSort (fun a b : Int => a ≤ b) _).mem_iff).mpr h2

/-- Inversion of a successful chart computation. -/
theorem chart_inv {child : Child} {pts : List GrowthPoint}
    (h : create_vocabulary_chart child = ChartResult.chart pts) :
    ∃ bday pairs, child.birthday = some bday ∧ collectAges bday child.words = some pairs
      ∧ pts = cumPoints pairs (sortedAges pairs) 0 ∧ child.words ≠ [] := by
  unfold create_vocabulary_chart at h
  by_cases hw : child.words.isEmpty
  · rw [if_pos hw] at h
    exact absurd h (by simp)
  · rw [if_neg hw] at h
    split at h
    · exact absurd h (by simp)
    · rename_i bday hb
      split at h
      · exact absurd h (by simp)
      · rename_i pairs hc
        simp only [ChartResult.chart.injEq] at h
        refine ⟨bday, pairs, hb, hc, h.symm, ?_⟩
        intro hnil
        exact hw (by simp [hnil])

/-! Claim theorems. -/

/-- C1: for every child, the in_vocabulary = true block of the
get_practice_words output is an initial segment (everything after it has
in_vocab = false), it is sorted ascending by typical_age_months, entries
whose word is absent from the corpus carry the sentinel 999, and the sort
is stable: at each fixed typical age the retained entries appear in their
original relative order from the child word list (the low-confidence pass
preserves that order by construction). -/
theorem recommend_invocab_sorted_stable (corpus : List CorpusRow) (child : Child) :
    ((get_practice_words corpus child).takeWhile (fun r => r.in_vocab)).Pairwise ageLE
    ∧ (∀ r ∈ (get_practice_words corpus child).takeWhile (fun r => r.in_vocab),
        dictFind corpus (lowerString r.word) = none → r.typical_age = 999)
    ∧ (∀ t : Int,
        (((get_practice_words corpus child).takeWhile (fun r => r.in_vocab)).filter
            (fun r => decide (r.typical_age = t))).Sublist
          ((lowConfidenceWords corpus child).filter (fun r => decide (r.typical_age = t))))
    ∧ ∀ r ∈ (get_practice_words corpus child).dropWhile (fun r => r.in_vocab),
        r.in_vocab = false := by
  have hpre := practice_takeWhile corpus child
  refine ⟨?_, ?_, ?_, ?_⟩
  · rw [hpre]
    exact (List.sorted_insertionSort ageLE (lowConfidenceWords corpus child)).sublist
      (List.take_sublist 5 _)
  · rw [hpre]
    intro r hr hnone
    have hmem : r ∈ lowConfidenceWords corpus child :=
      ((List.perm_insertionSort ageLE _).mem_iff).mp (List.take_subset _ _ hr)
    obtain ⟨e, _, _, hre⟩ := mem_lowConfidenceWords hmem
    subst hre
    show typicalAgeOf corpus (lowerString e.word) = 999
    unfold typicalAgeOf
    rw [show lowerString (lowConfWord corpus e).word = lowerString e.word from rfl] at hnone
    rw [hnone]
  · intro t
    rw [hpre]
    have h1 := (List.take_sublist 5 (sortedLowWords corpus child)).filter
      (fun r => decide (r.typical_age = t))
    rwa [sortedLow_filter_age corpus child t] at h1
  · obtain ⟨tail, heq, hp⟩ := practice_decomp corpus child
    rw [heq]
    intro r hr
    have hdrop : ((sortedLowWords corpus child).take 5 ++ tail).dropWhile
        (fun r => r.in_vocab) = tail := by
      apply dropWhile_append_all
      · intro x hx
        exact lowConf_in_vocab x
          (((List.perm_insertionSort ageLE _).mem_iff).mp (List.take_subset _ _ hx))
      · intro x hx
        obtain ⟨row, _, hxe, _⟩ := hp x hx
        rw [hxe]
        rfl
    rw [hdrop] at hr
    obtain ⟨row, _, hre, _⟩ := hp r hr
    rw [hre]
    rfl

/-- Witness for C1 at a concrete corpus and child: the entry zzz is absent
from the corpus, sits inside the in-vocabulary block, and carries the
sentinel age 999. -/
theorem recommend_invocab_sorted_stable_witness :
    (lowConfWord sampleCorpusA sampleEntryZZZ).typical_age = 999 :=
  (recommend_invocab_sorted_stable sampleCorpusA sampleChildA).2.1
    (lowConfWord sampleCorpusA sampleEntryZZZ) (by decide) (by decide)

/-- C2: for every child and corpus the recommendation list holds at most
five entries. -/
theorem recommend_length_le_five (corpus : List CorpusRow) (child : Child) :
    (get_practice_words corpus child).length ≤ 5 := by
  unfold get_practice_words
  exact List.length_take_le 5 _

/-- C3 fails as stated: a child with one high-confidence word and a corpus
of five rows that all carry that same word yields an empty recommendation
list, not five items — the fallback fill skips every corpus row whose word
is already in the vocabulary, so a corpus with at least five rows does not
guarantee five results. -/
theorem fallback_completeness_cex :
    (∀ e ∈ sampleChildHighA.words, ¬ (e.confidence.getD 0 < 50))
    ∧ 5 ≤ sampleCorpusAllA.length
    ∧ (get_practice_words sampleCorpusAllA sampleChildHighA).length ≠ 5 := by decide

/-- C3 amended: if the child has zero low-confidence words and the corpus
holds at least five rows whose words are not already in the child
vocabulary (case-insensitively), then get_practice_words returns exactly
five items, all with in_vocab = false. -/
theorem fallback_completeness_amended (corpus : List CorpusRow) (child : Child)
    (hconf : ∀ e ∈ child.words, isLowConfidence e = false)
    (helig : 5 ≤ (eligibleRows corpus (childWordsLower child)).length) :
    (get_practice_words corpus child).length = 5
    ∧ ∀ r ∈ get_practice_words corpus child, r.in_vocab = false := by
  have hlow : lowConfidenceWords corpus child = [] := by
    unfold lowConfidenceWords
    rw [List.filter_eq_nil_iff.mpr (fun e he => by simp [hconf e he])]
    rfl
  have hsorted : sortedLowWords corpus child = [] := by
    unfold sortedLowWords
    rw [hlow]
    rfl
  have hfive : ((sortedLowWords corpus child).take 5).length < 5 := by
    rw [hsorted]
    decide
  have hout : get_practice_words corpus child
      = (fillLoop (childWordsLower child) corpus []).take 5 := by
    unfold get_practice_words
    rw [hsorted]
    rfl
  have hlen : (fillLoop (childWordsLower child) corpus []).length = 5 := by
    rw [fillLoop_length (childWordsLower child) corpus [] (by decide)]
    simp only [List.length_nil, Nat.zero_add]
    omega
  constructor
  · rw [hout, List.length_take, hlen]
    exact Nat.min_self 5
  · intro r hr
    rw [hout] at hr
    have hr2 : r ∈ fillLoop (childWordsLower child) corpus [] := List.take_subset _ _ hr
    obtain ⟨tail, ht, hp⟩ := fillLoop_decomp (childWordsLower child) corpus []
    rw [ht, List.nil_append] at hr2
    obtain ⟨row, _, hre, _⟩ := hp r hr2
    rw [hre]
    rfl

/-- Witness for the amended C3: one high-confidence word and six eligible
corpus rows give exactly five fallback recommendations. -/
theorem fallback_completeness_amended_witness :
    (get_practice_words sampleCorpusSix sampleChildHighQ).length = 5
    ∧ ∀ r ∈ get_practice_words sampleCorpusSix sampleChildHighQ, r.in_vocab = false :=
  fallback_completeness_amended sampleCorpusSix sampleChildHighQ (by decide) (by decide)

/-- C4: whenever create_vocabulary_chart produces a chart, the successive
cumulative totals are non-decreasing, the last one equals the number of the
child word entries, and the per-bucket new-word counts also sum to that
number. -/
theorem chart_monotone_and_totals (child : Child) (pts : List GrowthPoint)
    (h : create_vocabulary_chart child = ChartResult.chart pts) :
    List.Chain' (fun m n : Nat => m ≤ n) (pts.map (fun pt => pt.cumulative_total))
    ∧ (pts.map (fun pt => pt.cumulative_total)).getLast? = some child.words.length
    ∧ (pts.map (fun pt => pt.new_word_count)).sum = child.words.length := by
  obtain ⟨bday, pairs, hb, hc, hpts, hne⟩ := chart_inv h
  subst hpts
  have hnd := sortedAges_nodup pairs
  have hcov : ∀ p ∈ pairs, p.1 ∈ sortedAges pairs := fun p hp => mem_sortedAges hp
  have hlen := collectAges_length bday child.words pairs hc
  have hsum := bucket_partition (sortedAges pairs) hnd pairs hcov
  refine ⟨?_, ?_, ?_⟩
  · have hch := cumPoints_chain pairs (sortedAges pairs) 0
    exact (show List.Chain' (fun m n : Nat => m ≤ n)
      (0 :: (cumPoints pairs (sortedAges pairs) 0).map (fun pt => pt.cumulative_total))
      from hch).tail
  · have hkeys : sortedAges pairs ≠ [] := by
      cases hp : pairs with
      | nil =>
        rw [hp] at hlen
        exact absurd (List.length_eq_zero.mp hlen.symm) hne
      | cons q qs =>
        exact List.ne_nil_of_mem (mem_sortedAges (List.mem_cons_self q qs))
    rw [cumPoints_last pairs (sortedAges pairs) 0 hkeys, hsum, hlen]
    rw [Nat.zero_add]
  · rw [cumPoints_newcounts pairs (sortedAges pairs) 0, hsum, hlen]

/-- Witness for C4 at a concrete child: three words in two buckets give
cumulative totals 2 then 3, ending at the word count 3, and bucket counts
2 and 1 summing to 3. -/
theorem chart_monotone_and_totals_witness :
    List.Chain' (fun m n : Nat => m ≤ n) (sampleChartPoints.map (fun pt => pt.cumulative_total))
    ∧ (sampleChartPoints.map (fun pt => pt.cumulative_total)).getLast?
        = some sampleChildChart.words.length
    ∧ (sampleChartPoints.map (fun pt => pt.new_word_count)).sum
        = sampleChildChart.words.length :=
  chart_monotone_and_totals sampleChildChart sampleChartPoints (by decide)

/-- C5: the age bucket of a word entry is the coarse calendar month
difference (date year minus birthday year) times 12 plus (date month minus
birthday month); the day fields play no role in the result, and every
entry — including one whose date precedes the birthday, making the bucket
negative — appears in the chart under exactly that bucket, neither clamped
nor rejected. -/
theorem age_bucket_formula (b t : String) (bY bM bD tY tM tD : Nat)
    (hb : parseDate b = some ⟨bY, bM, bD⟩) (ht : parseDate t = some ⟨tY, tM, tD⟩) :
    calculate_age_in_months b t
      = some (((tY : Int) - (bY : Int)) * 12 + ((tM : Int) - (bM : Int)))
    ∧ ∀ (child : Child) (pts : List GrowthPoint) (bd : String) (e : WordEntry) (a : Int),
        create_vocabulary_chart child = ChartResult.chart pts →
        child.birthday = some bd → e ∈ child.words →
        calculate_age_in_months bd e.date_added = some a →
        ∃ pt ∈ pts, pt.age_months = a ∧ e.word ∈ pt.new_words := by
  constructor
  · unfold calculate_age_in_months
    rw [hb, ht]
  · intro child pts bd e a hchart hbd hmem hage
    obtain ⟨bday, pairs, hb2, hc2, hpts, _⟩ := chart_inv hchart
    rw [hbd] at hb2
    have hbd2 : bd = bday := Option.some.inj hb2
    subst hbd2
    have hpair : (a, e.word) ∈ pairs := collectAges_mem bd child.words pairs e a hc2 hmem hage
    have hkey : a ∈ sortedAges pairs := mem_sortedAges (p := (a, e.word)) hpair
    subst hpts
    obtain ⟨pt, hpt, h1, h2⟩ := cumPoints_mem pairs (sortedAges pairs) 0 a hkey
    refine ⟨pt, hpt, h1, ?_⟩
    rw [h2]
    unfold bucketFor
    exact List.mem_map_of_mem Prod.snd (List.mem_filter.mpr ⟨hpair, by simp⟩)

/-- Witness for C5 at concrete dates: a word dated two calendar months
before the birthday gets the negative bucket minus two, and the chart keeps
that bucket as is. -/
theorem age_bucket_formula_witness :
    calculate_age_in_months "2024-05-15" "2024-03-10"
      = some (((2024 : Int) - (2024 : Int)) * 12 + ((3 : Int) - (5 : Int)))
    ∧ ∃ pt ∈ sampleEarlyPoints, pt.age_months = -2 ∧ "mama" ∈ pt.new_words := by
  have h := age_bucket_formula "2024-05-15" "2024-03-10" 2024 5 15 2024 3 10
    (by decide) (by decide)
  refine ⟨h.1, ?_⟩
  exact h.2 sampleChildEarly sampleEarlyPoints "2024-05-15"
    ⟨"mama", "2024-03-10", false, false, some 10⟩ (-2)
    (by decide) (by decide) (by decide) (by decide)

/-- C6 fails as stated: with an empty word list but a nonempty corpus,
get_practice_words is not empty — the fallback fill still suggests corpus
words.  Only the aggregation side, and the recommender with an empty
corpus, return empty results. -/
theorem empty_vocab_cex :
    sampleChildEmpty.words = []
    ∧ get_practice_words sampleCorpusUp sampleChildEmpty ≠ [] := by decide

/-- C6 amended: for every child whose word list is empty, recommend
returns the empty list when the corpus is also empty, and aggregate
reports the unavailable state; neither raises an error (both are total
functions of their inputs). -/
theorem empty_vocab_amended (child : Child) (h : child.words = []) :
    get_practice_words [] child = []
    ∧ create_vocabulary_chart child = ChartResult.unavailable := by
  constructor
  · unfold get_practice_words sortedLowWords lowConfidenceWords
    rw [h]
    rfl
  · unfold create_vocabulary_chart
    rw [h]
    rfl

/-- Witness for the amended C6 at a concrete child with a birthday and no
words. -/
theorem empty_vocab_amended_witness :
    get_practice_words [] sampleChildEmptyB = []
    ∧ create_vocabulary_chart sampleChildEmptyB = ChartResult.unavailable :=
  empty_vocab_amended sampleChildEmptyB (by decide)

/-- C7 fails as stated: a corpus word stored with an empty strategy text is
passed through as the empty string by the low-confidence path, not replaced
by the generic fallback — the fallback fires only when the word is absent
from the corpus dict. -/
theorem strategy_fallback_cex :
    (get_practice_words sampleCorpusEmptyStrat sampleChildUp).map (fun r => r.strategy) = [""]
    ∧ "" ≠ fallbackStrategy := by decide

/-- C7 amended: the strategy lookup returns the stored learning-strategy
text whenever the word is present in the corpus — including the empty
string when the stored text is empty — and returns the generic fallback
only when the word is absent; in the corpus fallback fill, a missing
strategy field yields the generic fallback. -/
theorem strategy_fallback_amended (corpus : List CorpusRow) (wl : String) :
    (dictFind corpus wl = none → strategyOf corpus wl = fallbackStrategy)
    ∧ (∀ r, dictFind corpus wl = some r → strategyOf corpus wl = r.strategy.getD "")
    ∧ ∀ r : CorpusRow, (fillWord r).strategy = r.strategy.getD fallbackStrategy := by
  refine ⟨?_, ?_, fun r => rfl⟩
  · intro h
    unfold strategyOf
    rw [h]
  · intro r h
    unfold strategyOf
    rw [h]

/-- Witness for the amended C7: the stored empty strategy of the word up is
returned as the empty string, while the absent word zz gets the generic
fallback. -/
theorem strategy_fallback_amended_witness :
    strategyOf sampleCorpusEmptyStrat (lowerString "up") = ""
    ∧ strategyOf sampleCorpusEmptyStrat "zz" = fallbackStrategy := by
  constructor
  · have h := (strategy_fallback_amended sampleCorpusEmptyStrat (lowerString "up")).2.1
      ⟨"up", 9, some ""⟩ (by decide)
    exact h.trans (by decide)
  · exact (strategy_fallback_amended sampleCorpusEmptyStrat "zz").1 (by decide)

/-- C8 fails as stated: the core performs no confidence validation at all.
A negative confidence flows through the comparison and is reported
literally, and a confidence above 100 is silently treated as confident;
no rejection and no ValidationError occur anywhere in the engine. -/
theorem confidence_validation_cex :
    (get_practice_words [] sampleChildNegConf).map (fun r => r.confidence) = [-10]
    ∧ get_practice_words [] sampleChildBigConf = [] := by decide

/-- C8 amended: the core neither rejects nor clamps out-of-range
confidence: the literal value is reported unchanged, an entry below 50
(even negative) is selected by the low-confidence pass, and an entry at or
above 50 (even above 100) is skipped, with no error in either case. -/
theorem confidence_validation_amended (corpus : List CorpusRow) (child : Child)
    (e : WordEntry) (hm : e ∈ child.words) :
    (lowConfWord corpus e).confidence = e.confidence.getD 0
    ∧ (e.confidence.getD 0 < 50 → lowConfWord corpus e ∈ lowConfidenceWords corpus child)
    ∧ (50 ≤ e.confidence.getD 0 → lowConfWord corpus e ∉ lowConfidenceWords corpus child) := by
  refine ⟨rfl, ?_, ?_⟩
  · intro hlt
    exact List.mem_map_of_mem _
      (List.mem_filter.mpr ⟨hm, by simpa [isLowConfidence] using hlt⟩)
  · intro hge hmem
    obtain ⟨e2, he2, hf, heq⟩ := mem_lowConfidenceWords hmem
    have hlt : e2.confidence.getD 0 < 50 := by simpa [isLowConfidence] using hf
    have hcf : e2.confidence.getD 0 = e.confidence.getD 0 :=
      congrArg PracticeRec.confidence heq.symm
    omega

/-- Witness for the amended C8: the negative-confidence entry is selected
with its literal value and the over-100 entry is skipped. -/
theorem confidence_validation_amended_witness :
    ((lowConfWord [] sampleEntryNeg).confidence = sampleEntryNeg.confidence.getD 0
      ∧ lowConfWord [] sampleEntryNeg ∈ lowConfidenceWords [] sampleChildMixed)
    ∧ lowConfWord [] sampleEntryBig ∉ lowConfidenceWords [] sampleChildMixed := by
  refine ⟨⟨(confidence_validation_amended [] sampleChildMixed sampleEntryNeg (by decide)).1, ?_⟩, ?_⟩
  · exact (confidence_validation_amended [] sampleChildMixed sampleEntryNeg (by decide)).2.1
      (by decide)
  · exact (confidence_validation_amended [] sampleChildMixed sampleEntryBig (by decide)).2.2
      (by decide)

/-- C9: the low-confidence scan treats each casing of a word as a distinct
entry — it emits exactly one record per low-confidence entry, carrying the
literal word — while the fallback fill excludes corpus words
case-insensitively: every in_vocab = false record in the output has a
lowercased word different from the lowercased form of every vocabulary
entry. -/
theorem casing_scan_vs_exclusion (corpus : List CorpusRow) (child : Child) :
    (lowConfidenceWords corpus child).map (fun r => r.word)
      = (child.words.filter isLowConfidence).map (fun e => e.word)
    ∧ ∀ r ∈ get_practice_words corpus child, r.in_vocab = false →
        lowerString r.word ∉ childWordsLower child := by
  constructor
  · unfold lowConfidenceWords
    rw [List.map_map]
    rfl
  · intro r hr hf
    obtain ⟨tail, heq, hp⟩ := practice_decomp corpus child
    rw [heq] at hr
    rcases List.mem_append.mp hr with h1 | h2
    · have hmem : r ∈ lowConfidenceWords corpus child :=
        ((List.perm_insertionSort ageLE _).mem_iff).mp (List.take_subset _ _ h1)
      have htrue := lowConf_in_vocab r hmem
      exact absurd (htrue.symm.trans hf) (by decide)
    · obtain ⟨row, _, hre, hnm⟩ := hp r h2
      rw [hre]
      exact hnm

/-- Witness for C9: the same word under two casings yields two scan
records, and the filled word dog passes the case-insensitive exclusion. -/
theorem casing_scan_vs_exclusion_witness :
    (lowConfidenceWords sampleCorpusC9 sampleChildC9).map (fun r => r.word) = ["Ball", "ball"]
    ∧ lowerString (fillWord sampleRowDog).word ∉ childWordsLower sampleChildC9 := by
  constructor
  · rw [(casing_scan_vs_exclusion sampleCorpusC9 sampleChildC9).1]
    decide
  · exact (casing_scan_vs_exclusion sampleCorpusC9 sampleChildC9).2
      (fillWord sampleRowDog) (by decide) (by decide)

/-- C10: an entry without a confidence key is treated as confidence 0 — it
is always selected by the low-confidence pass, and its record reports
confidence 0. -/
theorem missing_confidence_defaults (corpus : List CorpusRow) (child : Child)
    (e : WordEntry) (hm : e ∈ child.words) (hc : e.confidence = none) :
    lowConfWord corpus e ∈ lowConfidenceWords corpus child
    ∧ (lowConfWord corpus e).confidence = 0 := by
  constructor
  · exact List.mem_map_of_mem _
      (List.mem_filter.mpr ⟨hm, by simp [isLowConfidence, hc]⟩)
  · show e.confidence.getD 0 = 0
    rw [hc]
    rfl

/-- Witness for C10 at a concrete entry without a confidence key. -/
theorem missing_confidence_defaults_witness :
    lowConfWord [] sampleEntryNoConf ∈ lowConfidenceWords [] sampleChildNoConf
    ∧ (lowConfWord [] sampleEntryNoConf).confidence = 0 :=
  missing_confidence_defaults [] sampleChildNoConf sampleEntryNoConf (by decide) (by decide)
